import Mathlib

/-!
Verification development for the arbitration layer of the coreblocks
repository.

The round-robin arbiter (`Scheduler` in `coreblocks/transactions/_utils.py`),
the transaction manager and the connected-component schedulers declared in
`coreblocks/transactions/core.py` are exercised by the tests in
`test/transactions/test_transactions.py` but their implementation files are
not part of the provided tree; those components are modelled here from the
specification.  The `Serializer` / `FetchUnit` conflict declarations
(`coreblocks/frontend/fetch/fetch.py`) and the `assign` utility
(`coreblocks/utils/utils.py`) are embedded from source.
-/

namespace Coreblocks

/-- Modelled from the spec (§4.1, `Scheduler` is absent from the tree):
scan candidate indices in cyclic order starting at position `s` (mod `N`),
trying at most `fuel` positions, and return the first index whose request
bit is set. -/
def scanFrom (N : Nat) (req : Nat → Bool) : Nat → Nat → Option Nat
  | _, 0 => none
  | s, f + 1 => if req (s % N) then some (s % N) else scanFrom N req (s + 1) f

/-- Modelled from the spec (§4.1): grant the first requesting index found
scanning cyclically from `(P+1) mod N`, wrapping through `N-1` back to `0`,
up to `P` inclusive.  The request set is a bitset. -/
def findGrant (N P reqs : Nat) : Option Nat :=
  scanFrom N (fun i => reqs.testBit i) (P + 1) N

/-- Modelled from the spec (§4.1): one arbiter tick.  Returns the grant
(if any) and the new pointer: the pointer is set to the granted index and
is left unchanged when nothing is granted. -/
def arbStep (N P reqs : Nat) : Option Nat × Nat :=
  match findGrant N P reqs with
  | some g => (some g, g)
  | none => (none, P)

/-- Modelled from the spec (§4.1): the pointer is initially 0. -/
def arbInit : Nat := 0

/-- Grant sequence produced by running the arbiter over a request sequence. -/
def arbRunGrants (N : Nat) : Nat → List Nat → List (Option Nat)
  | _, [] => []
  | P, r :: rs => (arbStep N P r).1 :: arbRunGrants N (arbStep N P r).2 rs

/-- Final pointer after running the arbiter over a request sequence. -/
def arbRunPtr (N : Nat) : Nat → List Nat → Nat
  | P, [] => P
  | P, r :: rs => arbRunPtr N (arbStep N P r).2 rs

/-- Cyclic distance from the scan origin `s` to index `i` in a ring of
size `N` (number of scan steps after which the scan reaches `i`). -/
def offsetOf (N s i : Nat) : Nat :=
  if s % N ≤ i then i - s % N else i + N - s % N

theorem offsetOf_lt (N s i : Nat) (hN : 0 < N) (hi : i < N) :
    offsetOf N s i < N := by
  have hs : s % N < N := Nat.mod_lt _ hN
  unfold offsetOf
  split <;> omega

theorem offsetOf_congr (N s t i : Nat) (h : s % N = t % N) :
    offsetOf N s i = offsetOf N t i := by
  unfold offsetOf
  rw [h]

theorem offsetOf_eq_zero (N s i : Nat) (hN : 0 < N) (hi : i < N) :
    offsetOf N s i = 0 ↔ i = s % N := by
  have hs : s % N < N := Nat.mod_lt _ hN
  unfold offsetOf
  split <;> omega

theorem add_offsetOf_mod (N s i : Nat) (hN : 0 < N) (hi : i < N) :
    (s + offsetOf N s i) % N = i := by
  have hs : s % N < N := Nat.mod_lt _ hN
  have hdiv := Nat.mod_add_div s N
  generalize hq : N * (s / N) = m at hdiv
  unfold offsetOf
  split
  · have key : s + (i - s % N) = i + N * (s / N) := by rw [hq]; omega
    rw [key, Nat.add_mul_mod_self_left, Nat.mod_eq_of_lt hi]
  · have key : s + (i + N - s % N) = i + N * (s / N + 1) := by
      rw [Nat.mul_succ, hq]; omega
    rw [key, Nat.add_mul_mod_self_left, Nat.mod_eq_of_lt hi]

theorem offsetOf_succ (N s i : Nat) (hN : 0 < N) (hi : i < N) (hne : i ≠ s % N) :
    offsetOf N (s + 1) i + 1 = offsetOf N s i := by
  have hs : s % N < N := Nat.mod_lt _ hN
  have hN2 : 2 ≤ N := by
    by_contra h
    have hN1 : N = 1 := by omega
    subst hN1
    simp [Nat.mod_one] at hne
    omega
  have hstep : (s + 1) % N = (s % N + 1) % N := by
    conv_lhs => rw [Nat.add_mod]
    rw [Nat.mod_eq_of_lt (show 1 < N from hN2)]
  by_cases hc : s % N + 1 = N
  · have h0 : (s + 1) % N = 0 := by rw [hstep, hc, Nat.mod_self]
    unfold offsetOf
    rw [h0]
    simp only [Nat.zero_le, if_true]
    split <;> omega
  · have h1 : (s + 1) % N = s % N + 1 := by
      rw [hstep, Nat.mod_eq_of_lt (by omega)]
    unfold offsetOf
    rw [h1]
    split <;> split <;> omega

theorem offsetOf_add (N s i : Nat) (hN : 0 < N) (hi : i < N) :
    ∀ k, k ≤ offsetOf N s i → offsetOf N (s + k) i = offsetOf N s i - k := by
  intro k
  induction k with
  | zero => simp
  | succ k ih =>
    intro hk
    have hk' : k ≤ offsetOf N s i := by omega
    have h1 := ih hk'
    have hne : i ≠ (s + k) % N := by
      intro he
      have h0 := (offsetOf_eq_zero N (s + k) i hN hi).mpr he
      omega
    have h2 := offsetOf_succ N (s + k) i hN hi hne
    have hassoc : s + (k + 1) = s + k + 1 := by omega
    rw [hassoc]
    omega

theorem scanFrom_some_props (N : Nat) (req : Nat → Bool) (hN : 0 < N) :
    ∀ f s g, scanFrom N req s f = some g → req g = true ∧ g < N := by
  intro f
  induction f with
  | zero => intro s g h; simp [scanFrom] at h
  | succ f ih =>
    intro s g h
    by_cases hr : req (s % N)
    · simp [scanFrom, hr] at h
      subst h
      exact ⟨hr, Nat.mod_lt _ hN⟩
    · simp [scanFrom, hr] at h
      exact ih _ _ h

theorem scanFrom_none (N : Nat) (req : Nat → Bool) :
    ∀ f s, scanFrom N req s f = none → ∀ j, j < f → req ((s + j) % N) = false := by
  intro f
  induction f with
  | zero => intro s _ j hj; omega
  | succ f ih =>
    intro s h j hj
    by_cases hr : req (s % N)
    · simp [scanFrom, hr] at h
    · simp [scanFrom, hr] at h
      cases j with
      | zero => simpa using Bool.eq_false_iff.mpr hr
      | succ j =>
        have := ih (s + 1) h j (by omega)
        have harr : s + 1 + j = s + (j + 1) := by omega
        rwa [harr] at this

theorem scanFrom_some_of_offset (N : Nat) (req : Nat → Bool) (hN : 0 < N)
    (i : Nat) (hi : i < N) (hreq : req i = true) :
    ∀ f s, offsetOf N s i < f → ∃ g, scanFrom N req s f = some g := by
  intro f
  induction f with
  | zero => intro s h; omega
  | succ f ih =>
    intro s hoff
    by_cases hr : req (s % N)
    · exact ⟨s % N, by simp [scanFrom, hr]⟩
    · have hne : i ≠ s % N := by
        intro he
        rw [he] at hreq
        simp [hreq] at hr
      have h1 := offsetOf_succ N s i hN hi hne
      obtain ⟨g, hg⟩ := ih (s + 1) (by omega)
      exact ⟨g, by simp [scanFrom, hr, hg]⟩

theorem scanFrom_min (N : Nat) (req : Nat → Bool) (hN : 0 < N) :
    ∀ f s g, scanFrom N req s f = some g →
      ∀ i, i < N → req i = true → offsetOf N s i < f →
        offsetOf N s g ≤ offsetOf N s i := by
  intro f
  induction f with
  | zero => intro s g h; simp [scanFrom] at h
  | succ f ih =>
    intro s g h i hi hreq hoff
    by_cases hr : req (s % N)
    · simp [scanFrom, hr] at h
      subst h
      have h0 : offsetOf N s (s % N) = 0 :=
        (offsetOf_eq_zero N s (s % N) hN (Nat.mod_lt _ hN)).mpr rfl
      omega
    · simp [scanFrom, hr] at h
      have hne_i : i ≠ s % N := by
        intro he
        rw [he] at hreq
        simp [hreq] at hr
      have hgp := scanFrom_some_props N req hN f (s + 1) g h
      have hne_g : g ≠ s % N := by
        intro he
        rw [he] at hgp
        simp [hgp.1] at hr
      have h1 := offsetOf_succ N s i hN hi hne_i
      have h2 := offsetOf_succ N s g hN hgp.2 hne_g
      have := ih (s + 1) g h i hi hreq (by omega)
      omega

/-- Conflict priority annotation (spec §3). -/
inductive Priority where
  | undefined : Priority
  | left : Priority
  | right : Priority
deriving DecidableEq

/-- One `add_conflict` declaration: action `a` conflicts with action `b`,
optionally with a priority (`left`: `a` dominates `b`; `right`: `b`
dominates `a`). -/
structure ConflictDecl where
  a : Nat
  b : Nat
  prio : Priority
deriving DecidableEq

/-- Modelled from the spec (§3, §4.2-§4.4; `TransactionManager` is absent
from the tree): a built action system.  Actions are numbered `0..n-1`;
`conflicts` are the declared pairwise conflicts, `methods` lists, per shared
`Method`, the set of caller actions, and `groups` lists the contention
groups served by one round-robin arbiter each (built at `resolve()` time;
the spec leaves their exact formation open, §9). -/
structure ActionSystem where
  n : Nat
  conflicts : List ConflictDecl
  methods : List (List Nat)
  groups : List (List Nat)

/-- Modelled from the spec (§3): `j` dominates `i` when a conflict between
them carries a priority that favours `j`. -/
def dominates (sys : ActionSystem) (j i : Nat) : Bool :=
  sys.conflicts.any fun c =>
    (c.a == j && c.b == i && c.prio == Priority.left) ||
    (c.a == i && c.b == j && c.prio == Priority.right)

/-- Modelled from the spec (§3): two actions conflict when a conflict was
declared between them or when they both call the same shared `Method`. -/
def conflictsWith (sys : ActionSystem) (i j : Nat) : Bool :=
  (sys.conflicts.any fun c => (c.a == i && c.b == j) || (c.a == j && c.b == i)) ||
  (sys.methods.any fun g => g.contains i && g.contains j && i != j)

/-- Modelled from the spec (§4.4 step 2): an action is a candidate this
tick when it is ready and no action dominating it is ready (exclusion
applies even if the dominant action is itself excluded elsewhere). -/
def candidate (sys : ActionSystem) (ready : Nat → Bool) (i : Nat) : Bool :=
  decide (i < sys.n) && ready i &&
    ((List.range sys.n).all fun j => !(dominates sys j i && ready j))

/-- Modelled from the spec (§4.4 step 3): the round-robin winner of a
contention group: the group's arbiter is queried with the subset of group
members that are still candidates. -/
def groupWinner (sys : ActionSystem) (ready : Nat → Bool) (g : List Nat)
    (P : Nat) : Option Nat :=
  (scanFrom g.length (fun p => candidate sys ready (g.getD p 0)) (P + 1) g.length).map
    fun p => g.getD p 0

/-- Modelled from the spec (§4.4 step 4): an action is granted when it is a
candidate and it wins every contention group it belongs to (`ptrs` holds
the fairness pointer of each group, aligned with `sys.groups`). -/
def grantOne (sys : ActionSystem) (ready : Nat → Bool) (ptrs : List Nat)
    (i : Nat) : Bool :=
  candidate sys ready i &&
    ((List.range sys.groups.length).all fun k =>
      !((sys.groups.getD k []).contains i) ||
        (groupWinner sys ready (sys.groups.getD k []) (ptrs.getD k 0) == some i))

/-- Modelled from the spec (§4.3): directed precedence edges induced by the
priority annotations (`left`/`right` become directed edges, `undefined`
edges are omitted). -/
def directedEdges (conflicts : List ConflictDecl) : List (Nat × Nat) :=
  conflicts.filterMap fun c =>
    match c.prio with
    | Priority.left => some (c.a, c.b)
    | Priority.right => some (c.b, c.a)
    | Priority.undefined => none

def insertNode (x : Nat) (ns : List Nat) : List Nat :=
  if ns.contains x then ns else x :: ns

/-- The set of actions mentioned by the directed precedence edges. -/
def edgeNodes (es : List (Nat × Nat)) : List Nat :=
  es.foldr (fun e ns => insertNode e.1 (insertNode e.2 ns)) []

/-- A node with no incoming precedence edge from the remaining node set. -/
def pickReady (es : List (Nat × Nat)) (ns : List Nat) : Option Nat :=
  ns.find? fun x => es.all fun e => !(e.2 == x && ns.contains e.1)

/-- Modelled from the spec (§4.3): topological sort of the precedence
graph; when no node of the remaining set is free of incoming edges the
remaining (cyclic) node set is reported as a structured error. -/
def topoAux (es : List (Nat × Nat)) : Nat → List Nat → Except (List Nat) (List Nat)
  | _, [] => Except.ok []
  | 0, ns => Except.error ns
  | f + 1, ns =>
    match pickReady es ns with
    | none => Except.error ns
    | some x => (topoAux es f (ns.erase x)).map fun ord => x :: ord

/-- Modelled from the spec (§4.3, §6 `resolve()`): validate the priority
declarations; produce a topological order of the precedence graph or a
cycle error naming the offending actions. -/
def resolveSchedule (sys : ActionSystem) : Except (List Nat) (List Nat) :=
  topoAux (directedEdges sys.conflicts) (edgeNodes (directedEdges sys.conflicts)).length
    (edgeNodes (directedEdges sys.conflicts))

/-- The two-action system used by `TestTransactionPriorities`: two actions,
one conflict declaration with the given priority; with `undefined` priority
the pair forms one contention group. -/
def sysPair (p : Priority) : ActionSystem :=
  ⟨2, [⟨0, 1, p⟩], [],
    match p with
    | Priority.undefined => [[0, 1]]
    | _ => []⟩

/-- The `unsatisfiable` system of `TestTransactionPriorities`: each of two
actions declares the same priority against the other. -/
def sysMutual (p : Priority) (a b : Nat) : ActionSystem :=
  ⟨max a b + 1, [⟨a, b, p⟩, ⟨b, a, p⟩], [],
    match p with
    | Priority.undefined => [[a, b]]
    | _ => []⟩

/-- Three actions in a priority chain: 0 dominates 1, 1 dominates 2. -/
def sysChain3 : ActionSystem :=
  ⟨3, [⟨0, 1, Priority.left⟩, ⟨1, 2, Priority.left⟩], [], []⟩

/-- Three actions in mutual `undefined` conflict, one contention group. -/
def sysClique3 : ActionSystem :=
  ⟨3, [⟨0, 1, Priority.undefined⟩, ⟨1, 2, Priority.undefined⟩,
      ⟨0, 2, Priority.undefined⟩], [], [[0, 1, 2]]⟩

theorem candidate_parts (sys : ActionSystem) (ready : Nat → Bool) (i : Nat)
    (h : candidate sys ready i = true) :
    i < sys.n ∧ ready i = true ∧
      ∀ j, j < sys.n → dominates sys j i = true → ready j = false := by
  simp only [candidate, Bool.and_eq_true, decide_eq_true_eq, List.all_eq_true,
    List.mem_range, Bool.not_eq_true', Bool.and_eq_false_iff] at h
  refine ⟨h.1.1, h.1.2, fun j hj hdom => ?_⟩
  rcases h.2 j hj with hc | hc
  · rw [hdom] at hc; cases hc
  · exact hc

theorem grantOne_candidate (sys : ActionSystem) (ready : Nat → Bool)
    (ptrs : List Nat) (i : Nat) (h : grantOne sys ready ptrs i = true) :
    candidate sys ready i = true := by
  simp only [grantOne, Bool.and_eq_true] at h
  exact h.1

theorem grantOne_ready (sys : ActionSystem) (ready : Nat → Bool)
    (ptrs : List Nat) (i : Nat) (h : grantOne sys ready ptrs i = true) :
    ready i = true :=
  (candidate_parts sys ready i (grantOne_candidate sys ready ptrs i h)).2.1

theorem dominated_not_granted (sys : ActionSystem) (ready : Nat → Bool)
    (ptrs : List Nat) (j i : Nat) (hj : j < sys.n)
    (hdom : dominates sys j i = true) (hr : ready j = true) :
    grantOne sys ready ptrs i = false := by
  cases h : grantOne sys ready ptrs i with
  | false => rfl
  | true =>
    have hc := candidate_parts sys ready i (grantOne_candidate sys ready ptrs i h)
    have := hc.2.2 j hj hdom
    rw [hr] at this
    cases this

theorem grantOne_group_winner (sys : ActionSystem) (ready : Nat → Bool)
    (ptrs : List Nat) (i : Nat) (h : grantOne sys ready ptrs i = true)
    (k : Nat) (hk : k < sys.groups.length)
    (hmem : (sys.groups.getD k []).contains i = true) :
    groupWinner sys ready (sys.groups.getD k []) (ptrs.getD k 0) = some i := by
  simp only [grantOne, Bool.and_eq_true, List.all_eq_true, List.mem_range,
    Bool.or_eq_true, Bool.not_eq_true'] at h
  rcases h.2 k hk with hc | hc
  · rw [hmem] at hc; cases hc
  · simpa using hc

theorem mem_groups_getD (sys : ActionSystem) (g : List Nat)
    (hg : g ∈ sys.groups) :
    ∃ k, k < sys.groups.length ∧ sys.groups.getD k [] = g := by
  obtain ⟨k, hk, heq⟩ := List.mem_iff_getElem.mp hg
  exact ⟨k, hk, by rw [List.getD_eq_getElem sys.groups [] hk]; exact heq⟩

theorem same_group_unique (sys : ActionSystem) (ready : Nat → Bool)
    (ptrs : List Nat) (g : List Nat) (hg : g ∈ sys.groups) (x y : Nat)
    (hx : x ∈ g) (hy : y ∈ g)
    (hgx : grantOne sys ready ptrs x = true)
    (hgy : grantOne sys ready ptrs y = true) : x = y := by
  obtain ⟨k, hk, heq⟩ := mem_groups_getD sys g hg
  have h1 := grantOne_group_winner sys ready ptrs x hgx k hk
    (by rw [heq]; simpa using hx)
  have h2 := grantOne_group_winner sys ready ptrs y hgy k hk
    (by rw [heq]; simpa using hy)
  rw [h1] at h2
  exact Option.some.inj h2

/-- The grant set is pairwise conflict-free, under the build-time
well-formedness facts: conflict declarations stay in range, and every
`undefined` conflict pair and every shared-method caller pair lies inside
some contention group. -/
theorem granted_conflict_free (sys : ActionSystem) (ready : Nat → Bool)
    (ptrs : List Nat)
    (hrange : ∀ c ∈ sys.conflicts, c.a < sys.n ∧ c.b < sys.n)
    (hund : ∀ c ∈ sys.conflicts, c.prio = Priority.undefined →
      ∃ g ∈ sys.groups, c.a ∈ g ∧ c.b ∈ g)
    (hmeth : ∀ mg ∈ sys.methods, ∀ x ∈ mg, ∀ y ∈ mg, x ≠ y →
      ∃ g ∈ sys.groups, x ∈ g ∧ y ∈ g)
    (i j : Nat) (hne : i ≠ j)
    (hi : grantOne sys ready ptrs i = true)
    (hj : grantOne sys ready ptrs j = true) :
    conflictsWith sys i j = false := by
  by_contra h
  have h' : conflictsWith sys i j = true := by
    cases hc : conflictsWith sys i j with
    | false => exact absurd hc h
    | true => rfl
  simp only [conflictsWith, Bool.or_eq_true, List.any_eq_true, Bool.and_eq_true,
    beq_iff_eq, bne_iff_ne, List.contains, List.elem_iff] at h'
  rcases h' with ⟨c, hc, hcase⟩ | ⟨mg, hmg, hrest⟩
  · cases hp : c.prio with
    | left =>
      have hdom : dominates sys c.a c.b = true := by
        simp only [dominates, List.any_eq_true]
        exact ⟨c, hc, by simp [hp]⟩
      have hran := hrange c hc
      rcases hcase with ⟨hca, hcb⟩ | ⟨hca, hcb⟩
      · subst hca; subst hcb
        have := dominated_not_granted sys ready ptrs c.a c.b hran.1 hdom
          (grantOne_ready sys ready ptrs c.a hi)
        rw [hj] at this; cases this
      · subst hca; subst hcb
        have := dominated_not_granted sys ready ptrs c.a c.b hran.1 hdom
          (grantOne_ready sys ready ptrs c.a hj)
        rw [hi] at this; cases this
    | right =>
      have hdom : dominates sys c.b c.a = true := by
        simp only [dominates, List.any_eq_true]
        exact ⟨c, hc, by simp [hp]⟩
      have hran := hrange c hc
      rcases hcase with ⟨hca, hcb⟩ | ⟨hca, hcb⟩
      · subst hca; subst hcb
        have := dominated_not_granted sys ready ptrs c.b c.a hran.2 hdom
          (grantOne_ready sys ready ptrs c.b hj)
        rw [hi] at this; cases this
      · subst hca; subst hcb
        have := dominated_not_granted sys ready ptrs c.b c.a hran.2 hdom
          (grantOne_ready sys ready ptrs c.b hi)
        rw [hj] at this; cases this
    | undefined =>
      obtain ⟨g, hgmem, hag, hbg⟩ := hund c hc hp
      rcases hcase with ⟨hca, hcb⟩ | ⟨hca, hcb⟩
      · subst hca; subst hcb
        exact hne (same_group_unique sys ready ptrs g hgmem c.a c.b hag hbg hi hj)
      · subst hca; subst hcb
        exact hne (same_group_unique sys ready ptrs g hgmem c.b c.a hbg hag hi hj)
  · obtain ⟨⟨hmi, hmj⟩, -⟩ := hrest
    obtain ⟨g, hgmem, hig, hjg⟩ := hmeth mg hmg i hmi j hmj hne
    exact hne (same_group_unique sys ready ptrs g hgmem i j hig hjg hi hj)

theorem grant_pair_left (ready : Nat → Bool) (ptrs : List Nat)
    (h0 : ready 0 = true) (h1 : ready 1 = true) :
    grantOne ⟨2, [⟨0, 1, Priority.left⟩], [], []⟩ ready ptrs 0 = true ∧
    grantOne ⟨2, [⟨0, 1, Priority.left⟩], [], []⟩ ready ptrs 1 = false := by
  have hr2 : List.range 2 = [0, 1] := rfl
  constructor
  · simp [grantOne, candidate, dominates, hr2, h0, h1]
  · simp [grantOne, candidate, dominates, hr2, h0, h1]

theorem grant_pair_right (ready : Nat → Bool) (ptrs : List Nat)
    (h0 : ready 0 = true) (h1 : ready 1 = true) :
    grantOne ⟨2, [⟨0, 1, Priority.right⟩], [], []⟩ ready ptrs 1 = true ∧
    grantOne ⟨2, [⟨0, 1, Priority.right⟩], [], []⟩ ready ptrs 0 = false := by
  have hr2 : List.range 2 = [0, 1] := rfl
  constructor
  · simp [grantOne, candidate, dominates, hr2, h0, h1]
  · simp [grantOne, candidate, dominates, hr2, h0, h1]

theorem undef_no_dominates (sys : ActionSystem)
    (h : ∀ c ∈ sys.conflicts, c.prio = Priority.undefined) (j i : Nat) :
    dominates sys j i = false := by
  cases hd : dominates sys j i with
  | false => rfl
  | true =>
    exfalso
    obtain ⟨c, hc, hcond⟩ := List.any_eq_true.mp hd
    have hcp := h c hc
    simp [hcp] at hcond

theorem groupWinner_pair (sys : ActionSystem) (ready : Nat → Bool) (P : Nat)
    (hc0 : candidate sys ready 0 = ready 0)
    (hc1 : candidate sys ready 1 = ready 1) :
    groupWinner sys ready [0, 1] P =
      if (P + 1) % 2 = 0 then
        (if ready 0 then some 0 else if ready 1 then some 1 else none)
      else
        (if ready 1 then some 1 else if ready 0 then some 0 else none) := by
  rcases Nat.mod_two_eq_zero_or_one (P + 1) with hm | hm
  · have hm2 : (P + 1 + 1) % 2 = 1 := by omega
    cases hr0 : ready 0 <;> cases hr1 : ready 1 <;>
      simp [groupWinner, scanFrom, hm, hm2, hc0, hc1, hr0, hr1]
  · have hm2 : (P + 1 + 1) % 2 = 0 := by omega
    cases hr0 : ready 0 <;> cases hr1 : ready 1 <;>
      simp [groupWinner, scanFrom, hm, hm2, hc0, hc1, hr0, hr1]

theorem grantOne_pairgroup (sys : ActionSystem) (ready : Nat → Bool)
    (ptrs : List Nat) (hg : sys.groups = [[0, 1]]) (i : Nat) (hi : i < 2) :
    grantOne sys ready ptrs i =
      (candidate sys ready i &&
        (groupWinner sys ready [0, 1] (ptrs.getD 0 0) == some i)) := by
  have hr1 : List.range 1 = [0] := rfl
  interval_cases i <;> simp [grantOne, hg, hr1]

theorem pair_undef_xor (sys : ActionSystem) (hn : sys.n = 2)
    (hdom : ∀ j i, dominates sys j i = false)
    (hg : sys.groups = [[0, 1]])
    (ready : Nat → Bool) (ptrs : List Nat)
    (hor : ready 0 = true ∨ ready 1 = true) :
    grantOne sys ready ptrs 0 ≠ grantOne sys ready ptrs 1 := by
  have hr2 : List.range 2 = [0, 1] := rfl
  have hc0 : candidate sys ready 0 = ready 0 := by
    simp [candidate, hn, hdom, hr2]
  have hc1 : candidate sys ready 1 = ready 1 := by
    simp [candidate, hn, hdom, hr2]
  rw [grantOne_pairgroup sys ready ptrs hg 0 (by omega),
    grantOne_pairgroup sys ready ptrs hg 1 (by omega),
    groupWinner_pair sys ready (ptrs.getD 0 0) hc0 hc1, hc0, hc1]
  rcases Nat.mod_two_eq_zero_or_one (ptrs.getD 0 0 + 1) with hm | hm <;>
    cases hr0 : ready 0 <;> cases hr1 : ready 1 <;>
      simp_all

theorem resolve_mutual_left (a b : Nat) (hab : a ≠ b) :
    resolveSchedule (sysMutual Priority.left a b) = Except.error [b, a] := by
  have hba : b ≠ a := Ne.symm hab
  simp [resolveSchedule, sysMutual, directedEdges, edgeNodes, insertNode,
    topoAux, pickReady, hba, hab]

theorem resolve_mutual_right (a b : Nat) (hab : a ≠ b) :
    resolveSchedule (sysMutual Priority.right a b) = Except.error [a, b] := by
  have hba : b ≠ a := Ne.symm hab
  simp [resolveSchedule, sysMutual, directedEdges, edgeNodes, insertNode,
    topoAux, pickReady, hba, hab]

theorem resolve_mutual_undef (a b : Nat) :
    resolveSchedule (sysMutual Priority.undefined a b) = Except.ok [] := rfl

theorem list_all_congr {α : Type} (l : List α) (f g : α → Bool)
    (h : ∀ x ∈ l, f x = g x) : l.all f = l.all g := by
  induction l with
  | nil => rfl
  | cons x xs ih =>
    simp only [List.all_cons]
    rw [h x (by simp), ih fun y hy => h y (by simp [hy])]

theorem scanFrom_congr (N : Nat) (p q : Nat → Bool) (h : ∀ x, p x = q x) :
    ∀ f s, scanFrom N p s f = scanFrom N q s f := by
  intro f
  induction f with
  | zero => intro s; rfl
  | succ f ih =>
    intro s
    simp only [scanFrom, h (s % N), ih (s + 1)]

theorem candidate_congr (sys : ActionSystem) (r1 r2 : Nat → Bool)
    (h : ∀ j, j < sys.n → r1 j = r2 j) (i : Nat) :
    candidate sys r1 i = candidate sys r2 i := by
  by_cases hi : i < sys.n
  · simp only [candidate]
    rw [h i hi]
    congr 1
    exact list_all_congr _ _ _ fun j hj => by
      rw [h j (List.mem_range.mp hj)]
  · simp [candidate, hi]

theorem grantOne_congr (sys : ActionSystem) (r1 r2 : Nat → Bool)
    (ptrs : List Nat) (h : ∀ j, j < sys.n → r1 j = r2 j) (i : Nat) :
    grantOne sys r1 ptrs i = grantOne sys r2 ptrs i := by
  simp only [grantOne]
  rw [candidate_congr sys r1 r2 h i]
  congr 1
  refine list_all_congr _ _ _ fun k _ => ?_
  have hw : groupWinner sys r1 (sys.groups.getD k []) (ptrs.getD k 0) =
      groupWinner sys r2 (sys.groups.getD k []) (ptrs.getD k 0) := by
    simp only [groupWinner]
    rw [scanFrom_congr _ _ _ (fun p => candidate_congr sys r1 r2 h _) _ _]
  rw [hw]

theorem arbRunGrants_append (N : Nat) :
    ∀ xs P ys, arbRunGrants N P (xs ++ ys) =
      arbRunGrants N P xs ++ arbRunGrants N (arbRunPtr N P xs) ys := by
  intro xs
  induction xs with
  | nil => intro P ys; rfl
  | cons x xs ih =>
    intro P ys
    simp only [List.cons_append, arbRunGrants, arbRunPtr, List.append_eq]
    rw [ih]

/-- From `Serializer.__init__` in `coreblocks/frontend/fetch/fetch.py`:
three actions, `write` = 0, `read` = 1, `clean` = 2, with
`clean.add_conflict(write, Priority.LEFT)` and
`clean.add_conflict(read, Priority.LEFT)`. -/
def serializerSys : ActionSystem :=
  ⟨3, [⟨2, 0, Priority.left⟩, ⟨2, 1, Priority.left⟩], [], []⟩

/-- Registered state of the `Serializer`: the `valids` bit vector and the
instruction buffer slots. -/
structure SerializerState where
  valids : Nat
  slots : List Nat

/-- From `Serializer.elaborate` in `coreblocks/frontend/fetch/fetch.py`:
the body of the `clean` method performs `m.d.sync += valids.eq(0)`. -/
def serializerCleanBody (s : SerializerState) : SerializerState :=
  { s with valids := 0 }

/-- From `FetchUnit.__init__` in `coreblocks/frontend/fetch/fetch.py`:
`stall_exception` = 0, `resume` = 1, with
`stall_exception.add_conflict(resume, Priority.LEFT)`. -/
def fetchUnitSys : ActionSystem :=
  ⟨2, [⟨0, 1, Priority.left⟩], [], []⟩

/-- Modelled from the spec (§4.4, §5; the connected-component schedulers of
`coreblocks/transactions/core.py` are absent from the tree): two producer
transactions repeatedly call one shared method; each tick the scheduler
grants exactly one ready caller, which transfers the head of its queue.
The pick policy (`pick`/`upd` over scheduler state `σ`) is consulted only
under contention; a caller with an empty queue is not ready.  The output
records which side transferred each value. -/
def runTransfer {σ : Type} (pick : σ → Bool) (upd : σ → Bool → σ) :
    σ → List Nat → List Nat → List (Bool × Nat)
  | _, [], [] => []
  | s, [], y :: ys => (false, y) :: runTransfer pick upd (upd s false) [] ys
  | s, x :: xs, [] => (true, x) :: runTransfer pick upd (upd s true) xs []
  | s, x :: xs, y :: ys =>
    if pick s then (true, x) :: runTransfer pick upd (upd s true) xs (y :: ys)
    else (false, y) :: runTransfer pick upd (upd s false) (x :: xs) ys
termination_by s xs ys => xs.length + ys.length

/-- Modelled from the spec: `trivial_roundrobin_cc_scheduler` — per
contention group a round-robin arbiter; for a two-member group the pointer
remembers the last granted side and under contention the other side wins. -/
def trivialRoundrobinTransfer (xs ys : List Nat) : List (Bool × Nat) :=
  runTransfer (fun lastSide => !lastSide) (fun _ side => side) false xs ys

/-- Modelled from the spec: `eager_deterministic_cc_scheduler` — a
deterministic, stateless choice that always prefers the first caller in
the fixed ordering under contention. -/
def eagerDeterministicTransfer (xs ys : List Nat) : List (Bool × Nat) :=
  runTransfer (fun _ => true) (fun s _ => s) () xs ys

theorem runTransfer_exact {σ : Type} (pick : σ → Bool) (upd : σ → Bool → σ) :
    ∀ xs ys s,
      ((runTransfer pick upd s xs ys).filter fun t => t.1 == true).map Prod.snd = xs ∧
      ((runTransfer pick upd s xs ys).filter fun t => t.1 == false).map Prod.snd = ys := by
  intro xs
  induction xs with
  | nil =>
    intro ys
    induction ys with
    | nil => intro s; simp [runTransfer]
    | cons y ys ihy =>
      intro s
      obtain ⟨h1, h2⟩ := ihy (upd s false)
      simp [runTransfer]
      constructor
      · simpa using h1
      · simpa using h2
  | cons x xs ihx =>
    intro ys
    induction ys with
    | nil =>
      intro s
      obtain ⟨h1, h2⟩ := ihx [] (upd s true)
      simp [runTransfer]
      constructor
      · simpa using h1
      · simpa using h2
    | cons y ys ihy =>
      intro s
      by_cases hp : pick s = true
      · obtain ⟨h1, h2⟩ := ihx (y :: ys) (upd s true)
        simp [runTransfer, hp]
        constructor
        · simpa using h1
        · simpa using h2
      · obtain ⟨h1, h2⟩ := ihy (upd s false)
        simp [runTransfer, hp]
        constructor
        · simpa using h1
        · simpa using h2

/-- Operand of `assign` (`coreblocks/utils/utils.py`): either a non-record
value-like leaf (`Bool`: whether it has an explicit shape, i.e. is a
`Signal`/`ArrayProxy`; `Nat`: its width) or a `Record`/`dict` with named
fields. -/
inductive AValue where
  | leaf : Bool → Nat → AValue
  | record : List (String × AValue) → AValue

/-- Errors raised by `assign`: `KeyError` (with the offending field name)
or `ValueError`. -/
inductive AErr where
  | keyErr : String → AErr
  | valErr : AErr
deriving DecidableEq

/-- The `fields` parameter of `assign`: one of the `AssignType` enum
members, an iterable of field names, or a mapping from field names to
nested `fields` values. -/
inductive AssignFields where
  | common : AssignFields
  | rhsAll : AssignFields
  | allFields : AssignFields
  | fieldList : List String → AssignFields
  | fieldMap : List (String × AssignFields) → AssignFields

/-- `isinstance(fields, AssignType)` in the source. -/
def isAssignType : AssignFields → Bool
  | AssignFields.common => true
  | AssignFields.rhsAll => true
  | AssignFields.allFields => true
  | _ => false

/-- From `assign`: the `fields` value used when recursing into a
subrecord (`subfields` in the source). -/
def subFieldsFor (fl : AssignFields) (nm : String) : AssignFields :=
  match fl with
  | AssignFields.fieldMap m =>
    (((m.find? fun p => p.1 == nm).map Prod.snd).getD AssignFields.allFields)
  | AssignFields.fieldList _ => AssignFields.allFields
  | t => t

/-- Python `set` of a list of names: duplicates removed (first occurrence
kept; iteration order of the source's set is unspecified, the model fixes
declaration order). -/
def dedupNames : List String → List String
  | [] => []
  | n :: rest => n :: dedupNames (rest.filter fun m => !(m == n))
termination_by l => l.length
decreasing_by
  simp_wf
  have := List.length_filter_le (fun m => !(m == n)) rest
  omega

def keysOf (fs : List (String × AValue)) : List String := fs.map Prod.fst

/-- From `assign`: the selected field-name set (`names` in the source). -/
def selectNames (lnames rnames : List String) : AssignFields → List String
  | AssignFields.common => dedupNames (rnames.filter fun n => lnames.contains n)
  | AssignFields.rhsAll => dedupNames rnames
  | AssignFields.allFields =>
    dedupNames (lnames ++ rnames.filter fun n => !(lnames.contains n))
  | AssignFields.fieldList ns => dedupNames ns
  | AssignFields.fieldMap m => dedupNames (m.map Prod.fst)

def lookupF (fs : List (String × AValue)) (nm : String) : Option AValue :=
  ((fs.find? fun p => p.1 == nm).map Prod.snd)

theorem sizeOf_lookupF (fs : List (String × AValue)) (nm : String) (v : AValue)
    (h : lookupF fs nm = some v) : sizeOf v < sizeOf fs := by
  induction fs with
  | nil => simp [lookupF] at h
  | cons p rest ih =>
    obtain ⟨nm', v'⟩ := p
    by_cases hp : (nm' == nm) = true
    · simp [lookupF, List.find?, hp] at h
      subst h
      simp
      omega
    · simp only [lookupF, List.find?, hp] at h
      have := ih (by simpa [lookupF] using h)
      simp
      omega

mutual

/-- Shape (bit width) of an operand; a record's shape is the sum of its
field shapes. -/
def shapeOf : AValue → Nat
  | AValue.leaf _ w => w
  | AValue.record fs => shapeOfFields fs

/-- Total shape of a field list. -/
def shapeOfFields : List (String × AValue) → Nat
  | [] => 0
  | (_, v) :: fs => shapeOf v + shapeOfFields fs

end

def isRecordV : AValue → Bool
  | AValue.record _ => true
  | AValue.leaf _ _ => false

/-- `has_explicit_shape` in the source (`Signal` or `ArrayProxy`). -/
def explicitOf : AValue → Bool
  | AValue.leaf e _ => e
  | AValue.record _ => false

mutual

/-- Embedding of `assign` (`coreblocks/utils/utils.py`): generate the list
of `lhs.eq(rhs)` statements (as pairs of leaf operands) or raise the first
error, following the source's checks.  Record/dict operands recurse over
the selected field names; other operands take the leaf branch with its
shape check. -/
def assignV (lhs rhs : AValue) (fl : AssignFields) :
    Except AErr (List (AValue × AValue)) :=
  match lhs, rhs with
  | AValue.record lfs, AValue.record rfs =>
    if (selectNames (keysOf lfs) (keysOf rfs) fl).isEmpty &&
        !((keysOf lfs).isEmpty && (keysOf rfs).isEmpty) then
      Except.error AErr.valErr
    else assignNames lfs rfs fl (selectNames (keysOf lfs) (keysOf rfs) fl)
  | _, _ =>
    if isAssignType fl then
      if (isRecordV lhs || isRecordV rhs || (explicitOf lhs && explicitOf rhs)) &&
          !(shapeOf lhs == shapeOf rhs) then
        Except.error AErr.valErr
      else Except.ok [(lhs, rhs)]
    else Except.error AErr.valErr
termination_by (sizeOf lhs + sizeOf rhs, 0)

/-- The `for name in names` loop of `assign`: per-name `KeyError` checks
followed by the recursive call on the sub-operands. -/
def assignNames (lfs rfs : List (String × AValue)) (fl : AssignFields) :
    List String → Except AErr (List (AValue × AValue))
  | [] => Except.ok []
  | nm :: rest =>
    if !((keysOf lfs).contains nm) then Except.error (AErr.keyErr nm)
    else if !((keysOf rfs).contains nm) then Except.error (AErr.keyErr nm)
    else
      match hl : lookupF lfs nm, hr : lookupF rfs nm with
      | some lv, some rv =>
        match assignV lv rv (subFieldsFor fl nm) with
        | Except.error e => Except.error e
        | Except.ok st1 =>
          match assignNames lfs rfs fl rest with
          | Except.error e => Except.error e
          | Except.ok st2 => Except.ok (st1 ++ st2)
      | _, _ => Except.error (AErr.keyErr nm)
termination_by ns => (sizeOf lfs + sizeOf rfs, ns.length + 1)
decreasing_by
  · simp_wf
    have h1 := sizeOf_lookupF _ _ _ hl
    have h2 := sizeOf_lookupF _ _ _ hr
    apply Prod.Lex.left
    omega
  · simp_wf
    apply Prod.Lex.right
    omega

end

mutual

/-- `rhs` matches `lhs` for a default (`AssignType.RHS`) assignment: every
`rhs` field exists in `lhs` and recursively matches, and compared leaves
either agree in shape or do not both have explicit shapes. -/
def agreesRHS : AValue → AValue → Bool
  | AValue.leaf e1 w1, AValue.leaf e2 w2 => !(e1 && e2) || (w1 == w2)
  | AValue.record lfs, AValue.record rfs =>
    (!(keysOf rfs).isEmpty || (keysOf lfs).isEmpty) && agreesFs lfs rfs
  | _, _ => false
termination_by l r => sizeOf l + sizeOf r

/-- Fieldwise matching of an `rhs` field list against an `lhs` field list. -/
def agreesFs (lfs : List (String × AValue)) :
    List (String × AValue) → Bool
  | [] => true
  | (nm, rv) :: rest =>
    (match hl : lookupF lfs nm with
     | some lv => agreesRHS lv rv
     | none => false) && agreesFs lfs rest
termination_by l => sizeOf lfs + sizeOf l
decreasing_by
  all_goals simp_wf
  all_goals first
    | (have h1 := sizeOf_lookupF _ _ _ hl; simp; omega)
    | (simp; omega)

end

/-- Key list without duplicates. -/
def distinctKeys : List String → Bool
  | [] => true
  | n :: rest => !(rest.contains n) && distinctKeys rest

mutual

/-- Well-formed operand: no duplicated field names anywhere (Python
`Record`/`dict` field names are unique). -/
def wfV : AValue → Bool
  | AValue.leaf _ _ => true
  | AValue.record fs => distinctKeys (keysOf fs) && wfFields fs

def wfFields : List (String × AValue) → Bool
  | [] => true
  | (_, v) :: fs => wfV v && wfFields fs

end

mutual

/-- Number of leaf fields of an operand (one `eq` statement is generated
per assigned leaf). -/
def leafCount : AValue → Nat
  | AValue.leaf _ _ => 1
  | AValue.record fs => leafCountFields fs

def leafCountFields : List (String × AValue) → Nat
  | [] => 0
  | (_, v) :: fs => leafCount v + leafCountFields fs

end

/-- Total leaf count of the `rhs` sub-operands selected by a name list. -/
def leafCountNames (rfs : List (String × AValue)) : List String → Nat
  | [] => 0
  | nm :: rest =>
    (match lookupF rfs nm with
     | some rv => leafCount rv
     | none => 0) + leafCountNames rfs rest

theorem contains_of_lookup_some (fs : List (String × AValue)) (nm : String)
    (v : AValue) (h : lookupF fs nm = some v) :
    (keysOf fs).contains nm = true := by
  induction fs with
  | nil => simp [lookupF] at h
  | cons p rest ih =>
    obtain ⟨nm', v'⟩ := p
    by_cases hp : (nm' == nm) = true
    · simp [keysOf]
      left
      exact (beq_iff_eq.mp hp).symm
    · simp only [lookupF, List.find?, hp] at h
      have := ih (by simpa [lookupF] using h)
      simp [keysOf] at this ⊢
      right
      simpa [keysOf] using this

theorem lookup_some_of_contains (fs : List (String × AValue)) (nm : String)
    (h : (keysOf fs).contains nm = true) : ∃ v, lookupF fs nm = some v := by
  induction fs with
  | nil => simp [keysOf] at h
  | cons p rest ih =>
    obtain ⟨nm', v'⟩ := p
    by_cases hp : (nm' == nm) = true
    · exact ⟨v', by simp [lookupF, List.find?, hp]⟩
    · simp only [keysOf, List.map_cons, List.contains_cons] at h
      have hne : (nm == nm') = false := by
        cases hq : (nm == nm') with
        | false => rfl
        | true => exact absurd (by rw [beq_iff_eq.mp hq]; simp : (nm' == nm) = true) hp
      rw [hne] at h
      simp only [Bool.false_or] at h
      obtain ⟨v, hv⟩ := ih h
      exact ⟨v, by simpa [lookupF, List.find?, hp] using hv⟩

theorem lookupF_cons_ne (nm' : String) (v' : AValue)
    (fs : List (String × AValue)) (nm : String) (h : (nm' == nm) = false) :
    lookupF ((nm', v') :: fs) nm = lookupF fs nm := by
  simp [lookupF, List.find?, h]

theorem dedupNames_eq_self (ns : List String) (h : distinctKeys ns = true) :
    dedupNames ns = ns := by
  induction ns with
  | nil => simp [dedupNames]
  | cons n rest ih =>
    simp only [distinctKeys, Bool.and_eq_true, Bool.not_eq_true'] at h
    have hfilter : (rest.filter fun m => !(m == n)) = rest := by
      apply List.filter_eq_self.mpr
      intro m hm
      cases hq : (m == n) with
      | false => rfl
      | true =>
        exfalso
        rw [beq_iff_eq.mp hq] at hm
        have : rest.contains n = true := by simpa using hm
        rw [h.1] at this
        cases this
    simp only [dedupNames]
    rw [hfilter, ih h.2]

theorem leafCountNames_head_notin (nm : String) (v : AValue)
    (rest : List (String × AValue)) :
    ∀ ns, ns.contains nm = false →
      leafCountNames ((nm, v) :: rest) ns = leafCountNames rest ns := by
  intro ns
  induction ns with
  | nil => intro _; rfl
  | cons m ms ihm =>
    intro h
    simp only [List.contains_cons, Bool.or_eq_false_iff] at h
    have hne : (nm == m) = false := by
      cases hq : (nm == m) with
      | false => rfl
      | true =>
        rw [show nm = m from beq_iff_eq.mp hq] at h
        simp at h
    simp only [leafCountNames, lookupF_cons_ne nm v rest m hne, ihm h.2]

theorem leafCountNames_keys (rfs : List (String × AValue))
    (hd : distinctKeys (keysOf rfs) = true) :
    leafCountNames rfs (keysOf rfs) = leafCountFields rfs := by
  induction rfs with
  | nil => rfl
  | cons p rest ih =>
    obtain ⟨nm, v⟩ := p
    simp only [keysOf, List.map_cons] at hd ⊢
    simp only [distinctKeys, Bool.and_eq_true, Bool.not_eq_true'] at hd
    have hlook : lookupF ((nm, v) :: rest) nm = some v := by
      simp [lookupF, List.find?]
    simp only [leafCountNames, hlook, leafCountFields]
    rw [leafCountNames_head_notin nm v rest _ hd.1]
    have := ih hd.2
    simp only [keysOf] at this
    rw [this]

theorem agreesFs_lookup (lfs : List (String × AValue)) :
    ∀ rfs, agreesFs lfs rfs = true → wfFields rfs = true →
      ∀ nm ∈ keysOf rfs, ∃ lv rv, lookupF lfs nm = some lv ∧
        lookupF rfs nm = some rv ∧ agreesRHS lv rv = true ∧ wfV rv = true := by
  intro rfs
  induction rfs with
  | nil => intro _ _ nm hnm; simp [keysOf] at hnm
  | cons p rest ih =>
    obtain ⟨nm', rv'⟩ := p
    intro hfs hwff nm hnm
    simp only [agreesFs, Bool.and_eq_true] at hfs
    obtain ⟨hhead, htail⟩ := hfs
    simp only [wfFields, Bool.and_eq_true] at hwff
    obtain ⟨hwv, hwtail⟩ := hwff
    by_cases heq : (nm' == nm) = true
    · have hnm' : nm = nm' := (beq_iff_eq.mp heq).symm
      subst hnm'
      cases hl : lookupF lfs nm with
      | none => rw [hl] at hhead; simp at hhead
      | some lv =>
        rw [hl] at hhead
        exact ⟨lv, rv', rfl, by simp [lookupF, List.find?], hhead, hwv⟩
    · have hmem : nm ∈ keysOf rest := by
        simp only [keysOf, List.map_cons, List.mem_cons] at hnm
        rcases hnm with h | h
        · exact absurd (by rw [h]; simp : (nm' == nm) = true) heq
        · simpa [keysOf] using h
      obtain ⟨lv, rv, h1, h2, h3, h4⟩ := ih htail hwtail nm hmem
      refine ⟨lv, rv, h1, ?_, h3, h4⟩
      rw [lookupF_cons_ne nm' rv' rest nm (by simpa using heq), h2]

theorem assignRHS_ok_strong : ∀ m : Nat,
    (∀ l r, sizeOf l + sizeOf r ≤ m → agreesRHS l r = true → wfV r = true →
      ∃ st, assignV l r AssignFields.rhsAll = Except.ok st ∧
        st.length = leafCount r) ∧
    (∀ lfs rfs, sizeOf lfs + sizeOf rfs ≤ m →
      ∀ ns, (∀ nm ∈ ns, ∃ lv rv, lookupF lfs nm = some lv ∧
          lookupF rfs nm = some rv ∧ agreesRHS lv rv = true ∧ wfV rv = true) →
        ∃ st, assignNames lfs rfs AssignFields.rhsAll ns = Except.ok st ∧
          st.length = leafCountNames rfs ns) := by
  intro m
  induction m using Nat.strong_induction_on with
  | _ m ih =>
    constructor
    · intro l r hm hag hwf
      match l, r with
      | AValue.leaf e1 w1, AValue.leaf e2 w2 =>
        refine ⟨[(AValue.leaf e1 w1, AValue.leaf e2 w2)], ?_, by simp [leafCount]⟩
        cases he1 : e1 <;> cases he2 : e2
        · simp [assignV, isAssignType, isRecordV, explicitOf, shapeOf]
        · simp [assignV, isAssignType, isRecordV, explicitOf, shapeOf]
        · simp [assignV, isAssignType, isRecordV, explicitOf, shapeOf]
        · simp only [agreesRHS, he1, he2, Bool.and_self, Bool.not_true,
            Bool.false_or] at hag
          have hw : w1 = w2 := beq_iff_eq.mp hag
          subst hw
          simp [assignV, isAssignType, isRecordV, explicitOf, shapeOf]
      | AValue.leaf e w, AValue.record rfs => simp [agreesRHS] at hag
      | AValue.record lfs, AValue.leaf e w => simp [agreesRHS] at hag
      | AValue.record lfs, AValue.record rfs =>
        simp only [agreesRHS, Bool.and_eq_true] at hag
        obtain ⟨hne, hfs⟩ := hag
        simp only [wfV, Bool.and_eq_true] at hwf
        obtain ⟨hdk, hwff⟩ := hwf
        have hnames : selectNames (keysOf lfs) (keysOf rfs) AssignFields.rhsAll =
            keysOf rfs := by
          simp only [selectNames]
          exact dedupNames_eq_self (keysOf rfs) hdk
        have hsz1 : sizeOf (AValue.record lfs) = 1 + sizeOf lfs := by simp
        have hsz2 : sizeOf (AValue.record rfs) = 1 + sizeOf rfs := by simp
        have hklt : sizeOf lfs + sizeOf rfs < m := by omega
        cases hrfs : rfs with
        | nil =>
          subst hrfs
          have hlempty : (List.map Prod.fst lfs).isEmpty = true := by
            simpa [keysOf] using hne
          have hsel : selectNames (List.map Prod.fst lfs) [] AssignFields.rhsAll
              = [] := by
            simp [selectNames, dedupNames]
          refine ⟨[], ?_, by simp [leafCount, leafCountFields]⟩
          simp [assignV, keysOf, hsel, hlempty, assignNames]
        | cons p prest =>
          subst hrfs
          have hq := (ih _ hklt).2 lfs (p :: prest) le_rfl (keysOf (p :: prest))
            (agreesFs_lookup lfs (p :: prest) hfs hwff)
          obtain ⟨st, hst, hlen⟩ := hq
          refine ⟨st, ?_, ?_⟩
          · have hnonempty : (keysOf (p :: prest)).isEmpty = false := by
              simp [keysOf]
            simp [assignV, hnames, hnonempty, hst]
          · rw [hlen, leafCountNames_keys _ hdk]
            simp [leafCount]
    · intro lfs rfs hm ns
      induction ns with
      | nil =>
        intro _
        exact ⟨[], by simp [assignNames], by simp [leafCountNames]⟩
      | cons nm rest ihns =>
        intro hyp
        obtain ⟨lv, rv, hlv, hrv, hag, hwf⟩ := hyp nm (by simp)
        have hcl := contains_of_lookup_some lfs nm lv hlv
        have hcr := contains_of_lookup_some rfs nm rv hrv
        have hklt : sizeOf lv + sizeOf rv < m := by
          have h1 := sizeOf_lookupF lfs nm lv hlv
          have h2 := sizeOf_lookupF rfs nm rv hrv
          omega
        obtain ⟨st1, hst1, hlen1⟩ :=
          (ih _ hklt).1 lv rv le_rfl hag hwf
        obtain ⟨st2, hst2, hlen2⟩ := ihns fun x hx => hyp x (by simp [hx])
        refine ⟨st1 ++ st2, ?_, ?_⟩
        · have hml : nm ∈ keysOf lfs := by simpa using hcl
          have hmr : nm ∈ keysOf rfs := by simpa using hcr
          simp only [assignNames, hml, hmr]
          rw [if_neg (by simp [hml]), if_neg (by simp [hmr])]
          split
          · rename_i lv' rv' hl hr
            rw [hlv] at hl
            rw [hrv] at hr
            obtain rfl := Option.some.inj hl
            obtain rfl := Option.some.inj hr
            simp [subFieldsFor, hst1, hst2]
          · rename_i h
            exact (h lv rv hlv hrv).elim
        · simp [leafCountNames, hrv]
          omega

theorem arb_starvation_aux (N i : Nat) (hN : 0 < N) (hi : i < N) :
    ∀ d P reqs, offsetOf N (P + 1) i = d → d < reqs.length →
      (∀ r ∈ reqs, r.testBit i = true) → some i ∈ arbRunGrants N P reqs := by
  intro d
  induction d using Nat.strong_induction_on with
  | _ d ihd =>
    intro P reqs hd hlen hall
    cases reqs with
    | nil => simp at hlen
    | cons r rs =>
      have hr : r.testBit i = true := hall r (by simp)
      have hofflt : offsetOf N (P + 1) i < N := offsetOf_lt N (P + 1) i hN hi
      obtain ⟨g, hg⟩ :=
        scanFrom_some_of_offset N (fun j => r.testBit j) hN i hi hr N (P + 1) hofflt
      have hstep : arbStep N P r = (some g, g) := by
        simp [arbStep, findGrant, hg]
      by_cases hgi : g = i
      · subst hgi
        simp [arbRunGrants, hstep]
      · have hprops := scanFrom_some_props N (fun j => r.testBit j) hN N (P + 1) g hg
        have hmin := scanFrom_min N (fun j => r.testBit j) hN N (P + 1) g hg i hi hr hofflt
        have hstrict : offsetOf N (P + 1) g < offsetOf N (P + 1) i := by
          rcases Nat.lt_or_eq_of_le hmin with h | h
          · exact h
          · exfalso
            have h1 := add_offsetOf_mod N (P + 1) g hN hprops.2
            have h2 := add_offsetOf_mod N (P + 1) i hN hi
            rw [← h] at h2
            exact hgi (h1.symm.trans h2)
        have ha1 : offsetOf N (P + 1) g + 1 ≤ offsetOf N (P + 1) i := by omega
        have hoffadd := offsetOf_add N (P + 1) i hN hi (offsetOf N (P + 1) g + 1) ha1
        have hgeq := add_offsetOf_mod N (P + 1) g hN hprops.2
        have hcongr : offsetOf N (g + 1) i =
            offsetOf N (P + 1 + (offsetOf N (P + 1) g + 1)) i := by
          apply offsetOf_congr
          conv_lhs => rw [← hgeq]
          rw [Nat.mod_add_mod, Nat.add_assoc]
        have hnewlt : offsetOf N (g + 1) i < d := by
          rw [hcongr, hoffadd]
          omega
        have hlen' : offsetOf N (g + 1) i < rs.length := by
          simp only [List.length_cons] at hlen
          omega
        have hmem := ihd (offsetOf N (g + 1) i) (by omega) g rs rfl hlen'
          (fun r' hr' => hall r' (by simp [hr']))
        have hrun : arbRunGrants N P (r :: rs) =
            some g :: arbRunGrants N g rs := by
          simp [arbRunGrants, hstep]
        rw [hrun]
        exact List.mem_cons_of_mem _ hmem

theorem assignNames_missing (lfs rfs : List (String × AValue))
    (hsub : ∀ nm lv rv, lookupF lfs nm = some lv → lookupF rfs nm = some rv →
      ∃ st, assignV lv rv AssignFields.rhsAll = Except.ok st) :
    ∀ ns, (∀ nm ∈ ns, (keysOf rfs).contains nm = true) →
      (∃ nm ∈ ns, (keysOf lfs).contains nm = false) →
      ∃ nm, nm ∈ ns ∧ (keysOf lfs).contains nm = false ∧
        assignNames lfs rfs AssignFields.rhsAll ns =
          Except.error (AErr.keyErr nm) := by
  intro ns
  induction ns with
  | nil =>
    intro _ hmiss
    obtain ⟨nm, h, _⟩ := hmiss
    simp at h
  | cons nm rest ih =>
    intro hall hmiss
    by_cases hc : (keysOf lfs).contains nm = true
    · have hcr : (keysOf rfs).contains nm = true := hall nm (by simp)
      obtain ⟨lv, hlv⟩ := lookup_some_of_contains lfs nm hc
      obtain ⟨rv, hrv⟩ := lookup_some_of_contains rfs nm hcr
      obtain ⟨st1, hst1⟩ := hsub nm lv rv hlv hrv
      have hmiss' : ∃ nm0 ∈ rest, (keysOf lfs).contains nm0 = false := by
        obtain ⟨nm0, hmem0, h0⟩ := hmiss
        rcases List.mem_cons.mp hmem0 with rfl | hm
        · rw [hc] at h0; cases h0
        · exact ⟨nm0, hm, h0⟩
      obtain ⟨nm', hmem', hmiss'', herr⟩ :=
        ih (fun x hx => hall x (by simp [hx])) hmiss'
      refine ⟨nm', by simp [hmem'], hmiss'', ?_⟩
      have hml : nm ∈ keysOf lfs := by simpa using hc
      have hmr : nm ∈ keysOf rfs := by simpa using hcr
      simp only [assignNames]
      rw [if_neg (by simp [hml]), if_neg (by simp [hmr])]
      split
      · rename_i lv' rv' hl hr
        rw [hlv] at hl
        rw [hrv] at hr
        obtain rfl := Option.some.inj hl
        obtain rfl := Option.some.inj hr
        simp [subFieldsFor, hst1, herr]
      · rename_i h
        exact (h lv rv hlv hrv).elim
    · have hcf : (keysOf lfs).contains nm = false := by
        cases hq : (keysOf lfs).contains nm with
        | false => rfl
        | true => exact absurd hq hc
      have hnotmem : nm ∉ keysOf lfs := by simpa using hcf
      exact ⟨nm, by simp, hcf, by simp [assignNames, hnotmem]⟩

theorem assign_empty_names_valErr (lfs rfs : List (String × AValue))
    (fl : AssignFields)
    (hsel : selectNames (keysOf lfs) (keysOf rfs) fl = [])
    (hne : (keysOf lfs).isEmpty = false ∨ (keysOf rfs).isEmpty = false) :
    assignV (AValue.record lfs) (AValue.record rfs) fl =
      Except.error AErr.valErr := by
  rcases hne with h | h <;> simp [assignV, hsel, h]

theorem assign_leaf_shape_valErr (w1 w2 : Nat) (fl : AssignFields)
    (ht : isAssignType fl = true) (hw : w1 ≠ w2) :
    assignV (AValue.leaf true w1) (AValue.leaf true w2) fl =
      Except.error AErr.valErr := by
  have hbeq : (w1 == w2) = false := by simp [hw]
  simp [assignV, ht, isRecordV, explicitOf, shapeOf, hbeq]

/-- Two independent actions with no conflicts (used to exhibit a tick in
which two actions are granted together). -/
def sysFree : ActionSystem := ⟨2, [], [], []⟩

/-- C1: the round-robin arbiter keeps a pointer `P`, initially 0; on every
tick with a non-empty request set it grants exactly one index — the first
requesting index in the cyclic scan from `(P+1) mod N` through `P`
inclusive (i.e. the requesting index of minimal cyclic offset from `P+1`)
— and moves the pointer to the granted index.  For `N = 4` from reset the
request sequence `{1,3},{1,3},{1,3},{0,3},{0,3}` then `{0,1,2,3}` four
times yields grants `1,3,1,3,0` then `1,2,3,0`; for `N = 1` a non-zero
request grants index 0 and a zero request grants nothing. -/
theorem c1_round_robin_arbiter :
    (∀ N P reqs, 0 < N → (∃ i, i < N ∧ reqs.testBit i = true) →
      ∃ g, (arbStep N P reqs).1 = some g ∧ reqs.testBit g = true ∧ g < N ∧
        (∀ i, i < N → reqs.testBit i = true →
          offsetOf N (P + 1) g ≤ offsetOf N (P + 1) i) ∧
        (arbStep N P reqs).2 = g) ∧
    arbInit = 0 ∧
    arbRunGrants 4 arbInit [10, 10, 10, 9, 9, 15, 15, 15, 15] =
      [some 1, some 3, some 1, some 3, some 0, some 1, some 2, some 3, some 0] ∧
    (∀ P reqs, reqs.testBit 0 = true → arbStep 1 P reqs = (some 0, 0)) ∧
    (∀ P reqs, reqs.testBit 0 = false → (arbStep 1 P reqs).1 = none) := by
  refine ⟨?_, rfl, by decide, ?_, ?_⟩
  · intro N P reqs hN ⟨i, hi, hreq⟩
    have hofflt := offsetOf_lt N (P + 1) i hN hi
    obtain ⟨g, hg⟩ :=
      scanFrom_some_of_offset N (fun j => reqs.testBit j) hN i hi hreq N (P + 1) hofflt
    have hprops := scanFrom_some_props N (fun j => reqs.testBit j) hN N (P + 1) g hg
    have hstep : arbStep N P reqs = (some g, g) := by
      simp [arbStep, findGrant, hg]
    refine ⟨g, by simp [hstep], hprops.1, hprops.2, ?_, by simp [hstep]⟩
    intro i' hi' hreq'
    exact scanFrom_min N (fun j => reqs.testBit j) hN N (P + 1) g hg i' hi' hreq'
      (offsetOf_lt N (P + 1) i' hN hi')
  · intro P reqs h
    simp [arbStep, findGrant, scanFrom, Nat.mod_one, h]
  · intro P reqs h
    simp [arbStep, findGrant, scanFrom, Nat.mod_one, h]

theorem c1_round_robin_arbiter_witness :
    ∃ g, (arbStep 4 0 10).1 = some g ∧ (10 : Nat).testBit g = true ∧ g < 4 ∧
      (∀ i, i < 4 → (10 : Nat).testBit i = true →
        offsetOf 4 (0 + 1) g ≤ offsetOf 4 (0 + 1) i) ∧
      (arbStep 4 0 10).2 = g :=
  c1_round_robin_arbiter.1 4 0 10 (by decide) ⟨1, by decide, by decide⟩

/-- C2 counterexample: in the priority chain 0 ≻ 1 ≻ 2 with every action
ready, the pair (1, 2) has a defined priority and both members ready, yet
the dominant action 1 is not granted (it is itself excluded by the ready
action 0) — refuting the claim that for every defined-priority conflict
pair with both sides ready the dominant action is granted. -/
theorem c2_counterexample :
    (⟨1, 2, Priority.left⟩ ∈ sysChain3.conflicts) ∧
    (fun _ => true : Nat → Bool) 1 = true ∧
    (fun _ => true : Nat → Bool) 2 = true ∧
    grantOne sysChain3 (fun _ => true) [] 1 = false := by decide

/-- C2 (amended): for every conflict pair with a defined priority, on every
tick in which the dominant action is ready the dominated action is not
granted; the dominant action is granted whenever it is not itself excluded
by another ready dominating action or by group arbitration — in
particular, in the two-action test configurations the dominant action is
granted and executes and the dominated one is not, on every such tick. -/
theorem c2_amended_priority_exclusion :
    (∀ sys ready ptrs, ∀ c ∈ sys.conflicts, c.prio = Priority.left →
      c.a < sys.n → ready c.a = true →
        grantOne sys ready ptrs c.b = false) ∧
    (∀ sys ready ptrs, ∀ c ∈ sys.conflicts, c.prio = Priority.right →
      c.b < sys.n → ready c.b = true →
        grantOne sys ready ptrs c.a = false) ∧
    (∀ ready ptrs, ready 0 = true → ready 1 = true →
      grantOne (sysPair Priority.left) ready ptrs 0 = true ∧
      grantOne (sysPair Priority.left) ready ptrs 1 = false) ∧
    (∀ ready ptrs, ready 0 = true → ready 1 = true →
      grantOne (sysPair Priority.right) ready ptrs 1 = true ∧
      grantOne (sysPair Priority.right) ready ptrs 0 = false) := by
  refine ⟨?_, ?_, ?_, ?_⟩
  · intro sys ready ptrs c hc hp ha hr
    refine dominated_not_granted sys ready ptrs c.a c.b ha ?_ hr
    simp only [dominates, List.any_eq_true]
    exact ⟨c, hc, by simp [hp]⟩
  · intro sys ready ptrs c hc hp hb hr
    refine dominated_not_granted sys ready ptrs c.b c.a hb ?_ hr
    simp only [dominates, List.any_eq_true]
    exact ⟨c, hc, by simp [hp]⟩
  · exact fun ready ptrs h0 h1 => grant_pair_left ready ptrs h0 h1
  · exact fun ready ptrs h0 h1 => grant_pair_right ready ptrs h0 h1

theorem c2_amended_priority_exclusion_witness :
    grantOne sysChain3 (fun _ => true) [] 2 = false ∧
    (grantOne (sysPair Priority.left) (fun _ => true) [] 0 = true ∧
     grantOne (sysPair Priority.left) (fun _ => true) [] 1 = false) :=
  ⟨c2_amended_priority_exclusion.1 sysChain3 (fun _ => true) []
      ⟨1, 2, Priority.left⟩ (by decide) rfl (by decide) rfl,
   c2_amended_priority_exclusion.2.2.1 (fun _ => true) [] rfl rfl⟩

/-- C3 counterexample: three mutually conflicting actions (one `undefined`
clique, one contention group), all ready: the arbiter grants action 1
only, so for the mutually conflicting ready pair (0, 2) neither member
runs — refuting "when two mutually conflicting actions are both ready,
exactly one of the two runs". -/
theorem c3_counterexample :
    conflictsWith sysClique3 0 2 = true ∧
    (fun _ => true : Nat → Bool) 0 = true ∧
    (fun _ => true : Nat → Bool) 2 = true ∧
    grantOne sysClique3 (fun _ => true) [0] 0 = false ∧
    grantOne sysClique3 (fun _ => true) [0] 2 = false ∧
    grantOne sysClique3 (fun _ => true) [0] 1 = true := by decide

/-- C3 (amended): in every tick every granted action was ready, no two
granted actions conflict (hence each shared Method has at most one granted
caller, and at most one of any mutually conflicting ready pair runs),
under the build-time facts that conflict declarations are in range and
`undefined`/shared-method pairs lie in a contention group; when the two
conflicting actions are the only contenders (the tested two-action
configurations), exactly one of the two runs, for every priority
(including `undefined`). -/
theorem c3_amended_grant_invariant :
    (∀ sys ready ptrs i, grantOne sys ready ptrs i = true → ready i = true) ∧
    (∀ sys ready ptrs,
      (∀ c ∈ sys.conflicts, c.a < sys.n ∧ c.b < sys.n) →
      (∀ c ∈ sys.conflicts, c.prio = Priority.undefined →
        ∃ g ∈ sys.groups, c.a ∈ g ∧ c.b ∈ g) →
      (∀ mg ∈ sys.methods, ∀ x ∈ mg, ∀ y ∈ mg, x ≠ y →
        ∃ g ∈ sys.groups, x ∈ g ∧ y ∈ g) →
      ∀ i j, i ≠ j → grantOne sys ready ptrs i = true →
        grantOne sys ready ptrs j = true →
        conflictsWith sys i j = false ∧
        ∀ mg ∈ sys.methods, ¬(i ∈ mg ∧ j ∈ mg)) ∧
    (∀ p ready ptrs, ready 0 = true → ready 1 = true →
      grantOne (sysPair p) ready ptrs 0 ≠ grantOne (sysPair p) ready ptrs 1) := by
  refine ⟨fun sys ready ptrs i h => grantOne_ready sys ready ptrs i h, ?_, ?_⟩
  · intro sys ready ptrs hrange hund hmeth i j hne hi hj
    have hfree := granted_conflict_free sys ready ptrs hrange hund hmeth i j hne hi hj
    refine ⟨hfree, ?_⟩
    rintro mg hmg ⟨him, hjm⟩
    have : conflictsWith sys i j = true := by
      simp only [conflictsWith, Bool.or_eq_true, List.any_eq_true, Bool.and_eq_true]
      right
      exact ⟨mg, hmg, ⟨by simpa using him, by simpa using hjm⟩, by simpa using hne⟩
    rw [hfree] at this
    cases this
  · intro p ready ptrs h0 h1
    cases p with
    | left =>
      have h := grant_pair_left ready ptrs h0 h1
      rw [show sysPair Priority.left = ⟨2, [⟨0, 1, Priority.left⟩], [], []⟩ from rfl,
        h.1, h.2]
      simp
    | right =>
      have h := grant_pair_right ready ptrs h0 h1
      rw [show sysPair Priority.right = ⟨2, [⟨0, 1, Priority.right⟩], [], []⟩ from rfl,
        h.2, h.1]
      simp
    | undefined =>
      exact pair_undef_xor (sysPair Priority.undefined) rfl
        (undef_no_dominates (sysPair Priority.undefined) (by decide)) rfl
        ready ptrs (Or.inl h0)

theorem c3_amended_grant_invariant_witness :
    ((fun _ => true) : Nat → Bool) 0 = true ∧
    (conflictsWith sysFree 0 1 = false ∧
      ∀ mg ∈ sysFree.methods, ¬(0 ∈ mg ∧ 1 ∈ mg)) ∧
    grantOne (sysPair Priority.undefined) (fun _ => true) [0] 0 ≠
      grantOne (sysPair Priority.undefined) (fun _ => true) [0] 1 :=
  ⟨c3_amended_grant_invariant.1 sysFree (fun _ => true) [] 0 (by decide),
   c3_amended_grant_invariant.2.1 sysFree (fun _ => true) [] (by decide)
     (by decide) (by decide) 0 1 (by decide) (by decide) (by decide),
   c3_amended_grant_invariant.2.2 Priority.undefined (fun _ => true) [0] rfl rfl⟩

/-- C4: two actions each declaring the same directed priority against the
other (mutual `LEFT`, or symmetrically mutual `RIGHT`) make schedule
resolution fail at build time with a cycle error naming the offending
actions, and no schedule is produced; the same pair with `UNDEFINED`
priority on both sides resolves successfully and the built system runs,
with fairness granting exactly one of the two on every contended tick. -/
theorem c4_mutual_priority_cycle :
    (∀ a b, a ≠ b →
      resolveSchedule (sysMutual Priority.left a b) = Except.error [b, a]) ∧
    (∀ a b, a ≠ b →
      resolveSchedule (sysMutual Priority.right a b) = Except.error [a, b]) ∧
    (∀ a b, resolveSchedule (sysMutual Priority.undefined a b) = Except.ok []) ∧
    (∀ ready ptrs, ready 0 = true → ready 1 = true →
      grantOne (sysMutual Priority.undefined 0 1) ready ptrs 0 ≠
        grantOne (sysMutual Priority.undefined 0 1) ready ptrs 1) := by
  refine ⟨resolve_mutual_left, resolve_mutual_right,
    fun a b => resolve_mutual_undef a b, ?_⟩
  intro ready ptrs h0 h1
  exact pair_undef_xor (sysMutual Priority.undefined 0 1) rfl
    (undef_no_dominates (sysMutual Priority.undefined 0 1) (by decide)) rfl
    ready ptrs (Or.inl h0)

theorem c4_mutual_priority_cycle_witness :
    resolveSchedule (sysMutual Priority.left 0 1) = Except.error [1, 0] ∧
    resolveSchedule (sysMutual Priority.undefined 0 1) = Except.ok [] ∧
    grantOne (sysMutual Priority.undefined 0 1) (fun _ => true) [] 0 ≠
      grantOne (sysMutual Priority.undefined 0 1) (fun _ => true) [] 1 :=
  ⟨c4_mutual_priority_cycle.1 0 1 (by decide),
   c4_mutual_priority_cycle.2.2.1 0 1,
   c4_mutual_priority_cycle.2.2.2 (fun _ => true) [] rfl rfl⟩

/-- C5: no starvation — for every arbiter of size `N` and requester `i`,
over any window of `N` consecutive ticks (from any pointer state) in each
of which `i` is in the request set, index `i` is granted at least once. -/
theorem c5_no_starvation (N i P : Nat) (reqs : List Nat) (hN : 0 < N)
    (hi : i < N) (hlen : reqs.length = N)
    (hreq : ∀ r ∈ reqs, r.testBit i = true) :
    some i ∈ arbRunGrants N P reqs := by
  apply arb_starvation_aux N i hN hi (offsetOf N (P + 1) i) P reqs rfl ?_ hreq
  rw [hlen]
  exact offsetOf_lt N (P + 1) i hN hi

theorem c5_no_starvation_witness :
    some 0 ∈ arbRunGrants 2 1 [1, 1] :=
  c5_no_starvation 2 0 1 [1, 1] (by decide) (by decide) (by decide) (by decide)

/-- C6: on a tick with an empty request set the arbiter grants nothing and
the pointer is unchanged; the pointer is mutated only on a granting tick
(it becomes the granted index, and stays put on non-granting ticks); a
single requester that is granted keeps the pointer at its own index. -/
theorem c6_arbiter_frame (N P reqs : Nat) (hN : 0 < N) :
    ((∀ i, i < N → reqs.testBit i = false) → arbStep N P reqs = (none, P)) ∧
    (∀ g, (arbStep N P reqs).1 = some g → (arbStep N P reqs).2 = g) ∧
    ((arbStep N P reqs).1 = none → (arbStep N P reqs).2 = P) ∧
    (∀ i, i < N → (∀ j, j < N → (reqs.testBit j = true ↔ j = i)) →
      arbStep N P reqs = (some i, i)) := by
  refine ⟨?_, ?_, ?_, ?_⟩
  · intro hempty
    cases hf : findGrant N P reqs with
    | none => simp [arbStep, hf]
    | some g =>
      exfalso
      have hp := scanFrom_some_props N (fun j => reqs.testBit j) hN N (P + 1) g hf
      have hp1 : reqs.testBit g = true := hp.1
      rw [hempty g hp.2] at hp1
      exact absurd hp1 (by simp)
  · intro g hg
    cases hf : findGrant N P reqs with
    | none => rw [arbStep, hf] at hg; simp at hg
    | some g' =>
      rw [arbStep, hf] at hg ⊢
      simp at hg ⊢
      omega
  · intro hg
    cases hf : findGrant N P reqs with
    | none => rw [arbStep, hf]
    | some g' => rw [arbStep, hf] at hg; simp at hg
  · intro i hi hiff
    have hreq : reqs.testBit i = true := (hiff i hi).mpr rfl
    obtain ⟨g, hg⟩ := scanFrom_some_of_offset N (fun j => reqs.testBit j) hN i hi hreq
      N (P + 1) (offsetOf_lt N (P + 1) i hN hi)
    have hp := scanFrom_some_props N (fun j => reqs.testBit j) hN N (P + 1) g hg
    have hgi : g = i := (hiff g hp.2).mp hp.1
    subst hgi
    simp [arbStep, findGrant, hg]

theorem c6_arbiter_frame_witness :
    arbStep 2 1 0 = (none, 1) ∧ arbStep 2 0 2 = (some 1, 1) :=
  ⟨(c6_arbiter_frame 2 1 0 (by decide)).1 (by decide),
   (c6_arbiter_frame 2 0 2 (by decide)).2.2.2 1 (by decide) (by decide)⟩

/-- C7: determinism — the per-tick grant set is a pure function of the
readiness vector (the bits below `n`) and the arbiter pointer states; the
grant at a tick depends only on the state and that tick's request; and the
grant sequence of a replayed prefix is independent of the continuation. -/
theorem c7_determinism :
    (∀ sys r1 r2 ptrs, (∀ j, j < sys.n → r1 j = r2 j) →
      ∀ i, grantOne sys r1 ptrs i = grantOne sys r2 ptrs i) ∧
    (∀ N P r rs, arbRunGrants N P (r :: rs) =
      (arbStep N P r).1 :: arbRunGrants N (arbStep N P r).2 rs) ∧
    (∀ N P xs ys, arbRunGrants N P (xs ++ ys) =
      arbRunGrants N P xs ++ arbRunGrants N (arbRunPtr N P xs) ys) :=
  ⟨fun sys r1 r2 ptrs h i => grantOne_congr sys r1 r2 ptrs h i,
   fun _ _ _ _ => rfl,
   fun N P xs ys => arbRunGrants_append N xs P ys⟩

theorem c7_determinism_witness :
    grantOne (sysPair Priority.left) (fun _ => true) [] 0 =
      grantOne (sysPair Priority.left) (fun j => decide (j < 2)) [] 0 :=
  c7_determinism.1 (sysPair Priority.left) (fun _ => true)
    (fun j => decide (j < 2)) [] (by decide) 0

/-- C8: the two connected-component schedulers are observationally
interchangeable for two conflicting callers of a shared method: under the
round-robin policy and under the eager deterministic policy alike, every
submitted value is transferred exactly once and the values of each caller
arrive in that caller's FIFO order. -/
theorem c8_cc_schedulers_interchangeable (xs ys : List Nat) :
    (((trivialRoundrobinTransfer xs ys).filter fun t => t.1 == true).map
        Prod.snd = xs ∧
     ((trivialRoundrobinTransfer xs ys).filter fun t => t.1 == false).map
        Prod.snd = ys) ∧
    (((eagerDeterministicTransfer xs ys).filter fun t => t.1 == true).map
        Prod.snd = xs ∧
     ((eagerDeterministicTransfer xs ys).filter fun t => t.1 == false).map
        Prod.snd = ys) :=
  ⟨runTransfer_exact (fun lastSide => !lastSide) (fun _ side => side) xs ys false,
   runTransfer_exact (fun _ => true) (fun s _ => s) xs ys ()⟩

/-- C9: the `Serializer` declares `clean` conflicting with `write` and
`read` at `Priority.LEFT` (`clean` dominant), so on a tick in which
`clean` is granted neither `write` nor `read` runs, and `clean`'s body
zeroes every `valids` bit, discarding all buffered instructions; likewise
`FetchUnit.stall_exception` dominates `FetchUnit.resume`, so when both are
ready only `stall_exception` runs. -/
theorem c9_serializer_clean_dominates :
    (⟨2, 0, Priority.left⟩ ∈ serializerSys.conflicts ∧
     ⟨2, 1, Priority.left⟩ ∈ serializerSys.conflicts) ∧
    (∀ ready ptrs, grantOne serializerSys ready ptrs 2 = true →
      grantOne serializerSys ready ptrs 0 = false ∧
      grantOne serializerSys ready ptrs 1 = false) ∧
    (∀ s, (serializerCleanBody s).valids = 0 ∧
      ∀ i, ((serializerCleanBody s).valids).testBit i = false) ∧
    (∀ ready ptrs, ready 0 = true → ready 1 = true →
      grantOne fetchUnitSys ready ptrs 0 = true ∧
      grantOne fetchUnitSys ready ptrs 1 = false) := by
  refine ⟨⟨by decide, by decide⟩, ?_, ?_, ?_⟩
  · intro ready ptrs h
    have hr2 := grantOne_ready serializerSys ready ptrs 2 h
    exact ⟨dominated_not_granted serializerSys ready ptrs 2 0 (by decide)
        (by decide) hr2,
      dominated_not_granted serializerSys ready ptrs 2 1 (by decide)
        (by decide) hr2⟩
  · intro s
    exact ⟨rfl, fun i => by simp [serializerCleanBody]⟩
  · exact fun ready ptrs h0 h1 => grant_pair_left ready ptrs h0 h1

theorem c9_serializer_clean_dominates_witness :
    (grantOne serializerSys (fun _ => true) [] 0 = false ∧
     grantOne serializerSys (fun _ => true) [] 1 = false) ∧
    (grantOne fetchUnitSys (fun _ => true) [] 0 = true ∧
     grantOne fetchUnitSys (fun _ => true) [] 1 = false) :=
  ⟨c9_serializer_clean_dominates.2.1 (fun _ => true) [] (by decide),
   c9_serializer_clean_dominates.2.2.2 (fun _ => true) [] rfl rfl⟩

/-- C10: `assign` is total exactly on matching layouts — with the default
`fields=AssignType.RHS`, an `rhs` field missing from `lhs` raises
`KeyError`; an empty selected field set while either side has fields
raises `ValueError`; two explicitly shaped leaves of different shapes
raise `ValueError`; and on matching operands `assign` raises nothing and
yields exactly one `lhs.eq(rhs)` statement per assigned leaf field. -/
theorem c10_assign_contract :
    (∀ lfs rfs, distinctKeys (keysOf rfs) = true →
      (∀ nm lv rv, lookupF lfs nm = some lv → lookupF rfs nm = some rv →
        agreesRHS lv rv = true ∧ wfV rv = true) →
      (∃ nm ∈ keysOf rfs, (keysOf lfs).contains nm = false) →
      ∃ nm, (keysOf lfs).contains nm = false ∧
        assignV (AValue.record lfs) (AValue.record rfs) AssignFields.rhsAll =
          Except.error (AErr.keyErr nm)) ∧
    (∀ lfs rfs fl, selectNames (keysOf lfs) (keysOf rfs) fl = [] →
      ((keysOf lfs).isEmpty = false ∨ (keysOf rfs).isEmpty = false) →
      assignV (AValue.record lfs) (AValue.record rfs) fl =
        Except.error AErr.valErr) ∧
    (∀ w1 w2 fl, isAssignType fl = true → w1 ≠ w2 →
      assignV (AValue.leaf true w1) (AValue.leaf true w2) fl =
        Except.error AErr.valErr) ∧
    (∀ l r, agreesRHS l r = true → wfV r = true →
      ∃ st, assignV l r AssignFields.rhsAll = Except.ok st ∧
        st.length = leafCount r) := by
  refine ⟨?_, assign_empty_names_valErr, assign_leaf_shape_valErr,
    fun l r hag hwf =>
      (assignRHS_ok_strong (sizeOf l + sizeOf r)).1 l r le_rfl hag hwf⟩
  intro lfs rfs hdk hsub hmiss
  have hnames : selectNames (keysOf lfs) (keysOf rfs) AssignFields.rhsAll =
      keysOf rfs := by
    simp only [selectNames]
    exact dedupNames_eq_self _ hdk
  obtain ⟨nm0, hmem0, h0⟩ := hmiss
  have hkne : (keysOf rfs).isEmpty = false := by
    rcases hkk : keysOf rfs with _ | ⟨a, as⟩
    · rw [hkk] at hmem0; simp at hmem0
    · rfl
  have hsub' : ∀ nm lv rv, lookupF lfs nm = some lv → lookupF rfs nm = some rv →
      ∃ st, assignV lv rv AssignFields.rhsAll = Except.ok st := by
    intro nm lv rv hlv hrv
    obtain ⟨hag, hwf⟩ := hsub nm lv rv hlv hrv
    obtain ⟨st, hst, -⟩ :=
      (assignRHS_ok_strong (sizeOf lv + sizeOf rv)).1 lv rv le_rfl hag hwf
    exact ⟨st, hst⟩
  obtain ⟨nm, hmemn, hmissn, herr⟩ := assignNames_missing lfs rfs hsub'
    (keysOf rfs) (fun x hx => by simpa using hx) ⟨nm0, hmem0, h0⟩
  refine ⟨nm, hmissn, ?_⟩
  have hcond : (selectNames (keysOf lfs) (keysOf rfs)
      AssignFields.rhsAll).isEmpty = false := by
    rw [hnames]
    exact hkne
  simp [assignV, hnames, hcond, herr]
  intro hk
  rw [hk] at hmem0
  simp at hmem0

theorem c10_assign_contract_witness :
    (∃ nm, ((keysOf ([] : List (String × AValue))).contains nm = false ∧
      assignV (AValue.record []) (AValue.record [("x", AValue.leaf true 4)])
        AssignFields.rhsAll = Except.error (AErr.keyErr nm))) ∧
    assignV (AValue.record [("x", AValue.leaf true 4)]) (AValue.record [])
      AssignFields.rhsAll = Except.error AErr.valErr ∧
    assignV (AValue.leaf true 4) (AValue.leaf true 5) AssignFields.rhsAll =
      Except.error AErr.valErr ∧
    ∃ st, assignV (AValue.record [("x", AValue.leaf true 4)])
        (AValue.record [("x", AValue.leaf true 4)]) AssignFields.rhsAll =
        Except.ok st ∧
      st.length = leafCount (AValue.record [("x", AValue.leaf true 4)]) :=
  ⟨c10_assign_contract.1 [] [("x", AValue.leaf true 4)]
      (by simp [distinctKeys, keysOf])
      (by intro nm lv rv h; simp [lookupF] at h)
      ⟨"x", by simp [keysOf], by simp [keysOf]⟩,
   c10_assign_contract.2.1 [("x", AValue.leaf true 4)] []
      AssignFields.rhsAll (by simp [selectNames, keysOf, dedupNames])
      (Or.inl (by simp [keysOf])),
   c10_assign_contract.2.2.1 4 5 AssignFields.rhsAll rfl (by decide),
   c10_assign_contract.2.2.2 (AValue.record [("x", AValue.leaf true 4)])
      (AValue.record [("x", AValue.leaf true 4)])
      (by simp [agreesRHS, agreesFs, lookupF, List.find?, keysOf])
      (by simp [wfV, wfFields, distinctKeys, keysOf])⟩

end Coreblocks
